import Mathlib

/-!
Verification of the nbtgTimer OLED display stack (SSD1306/SSD1309 driver,
double-buffered framebuffer, chunked I2C DMA transfer engine).

Shallow embedding of the C sources:
- `src/sys/bsp/src/i2c.c` (transfer engine: `i2cTransferDisplayDMA`,
  `DMA1_Channel1_IRQHandler`),
- `src/drv/ssd1306/src/ssd1306.c` (framebuffer primitives),
- `src/nbtgTimer/src/display.c` (display session, drawing, fixed-point trig).

Framebuffers are modelled as flat byte maps `Nat → Nat` (byte value at flat
offset); machine-integer wraparound is made explicit with `% 256` where the C
code can wrap `uint8_t` arithmetic.  Panel geometry: the application
(`display.c`) and the spec fix a 128×64 panel, 8 pages of 128 bytes
(`SSD1306_WIDTH`/`SSD1306_HEIGHT` come from a header that is not in the tree;
the values below follow the spec and `display.c`).
-/

namespace NbtgTimer

/-- Byte buffer: value of the byte holding flat offset `i`.  Offsets beyond the
C array's size model the memory that follows the array. -/
def Buffer := Nat → Nat

/-- Panel width in pixels (`SSD1306_WIDTH` / `SSD1309_WIDTH`). -/
def SSD1306_WIDTH : Nat := 128

/-- Panel height in pixels (`SSD1306_HEIGHT` / `SSD1309_HEIGHT`). -/
def SSD1306_HEIGHT : Nat := 64

/-- Size of the GDDRAM framebuffer in bytes (`W*H/8`). -/
def SSD1306_BUFFER_SIZE : Nat := 1024

/-! ## Transfer engine (`src/sys/bsp/src/i2c.c`)

`i2cTransferDisplayDMA` programs the DMA channel and the I2C NBYTES field with
a fixed first chunk of 255 bytes (lines 165 and 169).  On each DMA
transfer-complete interrupt, `DMA1_Channel1_IRQHandler` adds the NBYTES value
of the chunk that just finished to `transferred` and, while
`transferred < len`, re-arms the channel with the next chunk
`min 255 (len - transferred)`; otherwise it invokes the status callback with
`true`.  On a transfer-error flag it invokes the callback with `false`. -/

/-- Action performed by one run of `DMA1_Channel1_IRQHandler`. -/
inductive DmaAction where
  | rearm (chunk : Nat)
  | invokeCallback (ok : Bool)
  | noAction
deriving DecidableEq, Repr

/-- One run of `DMA1_Channel1_IRQHandler` (i2c.c lines 172–209).
`tc`/`te` are the DMA transfer-complete / transfer-error flags, `len` and
`transferred` come from the current transfer context, `lastChunk` is the
NBYTES value programmed for the chunk that just completed (read back from
`I2C2->CR2`).  Returns the updated `transferred` and the action taken. -/
def DMA1_Channel1_IRQHandler (tc te : Bool) (len transferred lastChunk : Nat) :
    Nat × DmaAction :=
  if tc then
    let t' := transferred + lastChunk
    if t' < len then
      (t', .rearm (min 255 (len - t')))
    else
      (t', .invokeCallback true)
  else if te then
    (transferred, .invokeCallback false)
  else
    (transferred, .noAction)

/-- Chunk sizes issued by the re-arm loop of `DMA1_Channel1_IRQHandler` once
`transferred` bytes of a `len`-byte transfer are done: while
`transferred < len` the next chunk is `min 255 (len - transferred)`
(i2c.c lines 182–196). -/
def dmaChunkTrace (len transferred : Nat) : List Nat :=
  if transferred < len then
    let c := min 255 (len - transferred)
    c :: dmaChunkTrace len (transferred + c)
  else
    []
termination_by len - transferred
decreasing_by
  simp only [Nat.min_def]
  split <;> omega

/-- Chunk sizes issued for a whole display DMA transfer of `len` bytes:
`i2cTransferDisplayDMA` (i2c.c lines 147–170) always programs a first chunk of
255 bytes (`LL_DMA_SetDataLength(..., 255)` and NBYTES = 255), after which the
interrupt handler re-arms from `transferred = 255`. -/
def i2cTransferDisplayDMA_chunks (len : Nat) : List Nat :=
  255 :: dmaChunkTrace len 255

theorem dmaChunkTrace_eq (len transferred : Nat) :
    dmaChunkTrace len transferred =
      if transferred < len then
        min 255 (len - transferred) ::
          dmaChunkTrace len (transferred + min 255 (len - transferred))
      else [] := by
  rw [dmaChunkTrace]

theorem dmaChunkTrace_props (len : Nat) :
    ∀ k transferred, len - transferred ≤ k → transferred ≤ len →
      (∀ c ∈ dmaChunkTrace len transferred, 0 < c ∧ c ≤ 255) ∧
        (dmaChunkTrace len transferred).sum = len - transferred ∧
        (dmaChunkTrace len transferred).length = (len - transferred + 254) / 255 := by
  intro k
  induction k with
  | zero =>
    intro t hk ht
    rw [dmaChunkTrace_eq, if_neg (by omega)]
    refine ⟨by simp, by simp; omega, by simp; omega⟩
  | succ k ih =>
    intro t hk ht
    by_cases hlt : t < len
    · rw [dmaChunkTrace_eq, if_pos hlt]
      obtain ⟨ihb, ihs, ihl⟩ := ih (t + min 255 (len - t)) (by omega) (by omega)
      refine ⟨?_, ?_, ?_⟩
      · intro c hc
        rcases List.mem_cons.mp hc with h | h
        · subst h; omega
        · exact ihb c h
      · simp only [List.sum_cons, ihs]; omega
      · simp only [List.length_cons, ihl]; omega
    · rw [dmaChunkTrace_eq, if_neg hlt]
      refine ⟨by simp, by simp; omega, by simp; omega⟩

/-- C1, as the claim states it, fails on the code: the engine issues the first
chunk as a fixed 255 bytes regardless of the requested length, so a
zero-length transfer issues one 255-byte chunk instead of none, its chunk
sizes sum to 255 instead of 0, and its chunk count is 1 instead of
`ceil(0/255) = 0`. -/
theorem c1_zero_length_transfer_issues_a_255_byte_chunk :
    i2cTransferDisplayDMA_chunks 0 = [255] ∧
      (i2cTransferDisplayDMA_chunks 0).sum ≠ 0 ∧
      (i2cTransferDisplayDMA_chunks 0).length ≠ 0 := by
  have h : i2cTransferDisplayDMA_chunks 0 = [255] := by
    rw [i2cTransferDisplayDMA_chunks, dmaChunkTrace_eq]
    simp
  refine ⟨h, by rw [h]; decide, by rw [h]; decide⟩

/-- C1 (amended): for every display DMA transfer of length `L ≥ 255` — the
only caller passes the 1024-byte framebuffer — every chunk is between 1 and
255 bytes (in particular no trailing zero-byte chunk is issued when
`L % 255 = 0`), the chunk sizes sum exactly to `L`, and the number of chunks
is `ceil(L/255)`.  For `L < 255` the engine instead issues a single fixed
255-byte chunk. -/
theorem c1_chunking_correct_from_255 (L : Nat) (hL : 255 ≤ L) :
    (∀ c ∈ i2cTransferDisplayDMA_chunks L, 0 < c ∧ c ≤ 255) ∧
      (i2cTransferDisplayDMA_chunks L).sum = L ∧
      (i2cTransferDisplayDMA_chunks L).length = (L + 254) / 255 := by
  obtain ⟨hb, hs, hl⟩ := dmaChunkTrace_props L (L - 255) 255 (le_refl _) hL
  refine ⟨?_, ?_, ?_⟩
  · intro c hc
    rcases List.mem_cons.mp hc with h | h
    · subst h; exact ⟨by omega, le_refl _⟩
    · exact hb c h
  · simp only [i2cTransferDisplayDMA_chunks, List.sum_cons, hs]
    omega
  · simp only [i2cTransferDisplayDMA_chunks, List.length_cons, hl]
    omega

/-- C1 witness: the chunking theorem applied to the framebuffer transfer
length 1024 actually used by `display.c`. -/
theorem c1_chunking_correct_from_255_witness :
    (∀ c ∈ i2cTransferDisplayDMA_chunks 1024, 0 < c ∧ c ≤ 255) ∧
      (i2cTransferDisplayDMA_chunks 1024).sum = 1024 ∧
      (i2cTransferDisplayDMA_chunks 1024).length = (1024 + 254) / 255 :=
  c1_chunking_correct_from_255 1024 (by decide)

/-! ## Fixed-point trigonometry (`src/nbtgTimer/src/display.c`)

`g_cosLUT` is a full-circle table `cos(i * 5°) * 1024` for `i = 0 .. 71`
(display.c lines 56–61).  `fxp_cos` reduces the angle mod 360, indexes the
table at `deg / 5` and then *additionally* negates the (already signed) table
value for `90 < deg ≤ 270`; `fxp_sin deg = fxp_cos ((deg + 90) % 360)`
(display.c lines 765–776; the C `deg + 90` is promoted to `int`, so no
16-bit wraparound occurs before the `% 360`). -/

/-- Precomputed cosine table `cos(i * 5 deg) * 1024` (display.c lines 56–61). -/
def g_cosLUT : List Int :=
  [ 1024,  1020,  1008,  989,  962,  928,  887,  839,  784,  724,  658,   587,
    512,   433,   350,   265,  178,  89,   0,    -89,  -178, -265, -350,  -433,
    -512,  -587,  -658,  -724, -784, -839, -887, -928, -962, -989, -1008, -1020,
    -1024, -1020, -1008, -989, -962, -928, -887, -839, -784, -724, -658,  -587,
    -512,  -433,  -350,  -265, -178, -89,  0,    89,   178,  265,  350,   433,
    512,   587,   658,   724,  784,  839,  887,  928,  962,  989,  1008,  1020 ]

/-- Fixed-point cosine (display.c lines 770–776). -/
def fxp_cos (deg : Nat) : Int :=
  let d := deg % 360
  let idx := d / 5
  let val := g_cosLUT.getD idx 0
  if 90 < d ∧ d ≤ 270 then -val else val

/-- Fixed-point sine (display.c lines 765–768). -/
def fxp_sin (deg : Nat) : Int :=
  fxp_cos ((deg + 90) % 360)

/-- C7: at the cardinal angles the code returns `fxp_cos 0 = 1024`,
`fxp_cos 90 = 0`, `fxp_cos 270 = 0`, `fxp_sin 0 = 0`, `fxp_sin 90 = 1024`,
`fxp_sin 180 = 0` — but `fxp_cos 180 = +1024` and `fxp_sin 270 = +1024`,
where the true values scaled by 1024 are `-1024`: the conditional negation
for `90 < deg ≤ 270` flips the sign of the already-signed full-circle LUT
entry, so the claim's `fxp_cos(180) = -1024` (and `fxp_sin(270) = -1024`)
fails on the code. -/
theorem c7_cardinal_trig_values_show_sign_bug :
    fxp_cos 0 = 1024 ∧ fxp_cos 90 = 0 ∧ fxp_cos 270 = 0 ∧
      fxp_sin 0 = 0 ∧ fxp_sin 90 = 1024 ∧ fxp_sin 180 = 0 ∧
      fxp_cos 180 = 1024 ∧ fxp_cos 180 ≠ -1024 ∧
      fxp_sin 270 = 1024 ∧ fxp_sin 270 ≠ -1024 := by
  decide

/-! ## Angle normalization for arc drawing

`ssd1306_NormalizeTo0_360` (ssd1306.c lines 376–389) returns its argument
unchanged when it is `≤ 360`, otherwise reduces mod 360 and maps a zero
remainder to 360.  `dispDrawCircleShape` (display.c lines 464–471) instead
returns immediately when the sweep is 0, reduces the start angle with
`start_deg %= 360`, and clamps sweeps above 360 down to 360. -/

/-- Normalization used by the ssd1306 arc drawers (ssd1306.c lines 376–389). -/
def ssd1306_NormalizeTo0_360 (par_deg : Nat) : Nat :=
  if par_deg ≤ 360 then
    par_deg
  else
    let loc_angle := par_deg % 360
    if loc_angle ≠ 0 then loc_angle else 360

/-- Angle handling at the top of `dispDrawCircleShape` (display.c lines
464–471): `none` when the `sweep_deg == 0` guard returns early, otherwise the
pair (start angle reduced mod 360, sweep clamped to at most 360). -/
def dispDrawCircleShape_angles (start_deg sweep_deg : Nat) : Option (Nat × Nat) :=
  if sweep_deg = 0 then none
  else some (start_deg % 360, if sweep_deg > 360 then 360 else sweep_deg)

/-- C8, as the claim states it, fails on the code at two points: the angle 0
is a multiple of 360 but `ssd1306_NormalizeTo0_360 0 = 0`, not 360; and
`dispDrawCircleShape` reduces its start angle with `%= 360`, so a start angle
of 360 becomes 0 there. -/
theorem c8_normalization_of_0_and_start_360 :
    ssd1306_NormalizeTo0_360 0 = 0 ∧
      dispDrawCircleShape_angles 360 90 = some (0, 90) := by
  decide

/-- C8 (amended): every *nonzero* multiple of 360 is normalized to 360 by
`ssd1306_NormalizeTo0_360`, and in `dispDrawCircleShape` a nonzero
multiple-of-360 sweep is clamped to 360 (a zero sweep returns without
drawing); the angle 0 normalizes to 0, and `dispDrawCircleShape` reduces its
start angle mod 360, so a start of 360 degenerates to 0 there. -/
theorem c8_nonzero_multiples_of_360_normalize_to_360
    (d start s : Nat) (hd : d % 360 = 0) (hd0 : 0 < d)
    (hs : s % 360 = 0) (hs0 : 0 < s) :
    ssd1306_NormalizeTo0_360 d = 360 ∧
      dispDrawCircleShape_angles start s = some (start % 360, 360) := by
  constructor
  · rw [ssd1306_NormalizeTo0_360]
    by_cases h : d ≤ 360
    · rw [if_pos h]; omega
    · rw [if_neg h]; simp only [hd]; simp
  · rw [dispDrawCircleShape_angles, if_neg (by omega)]
    have : s = 360 ∨ s > 360 := by omega
    rcases this with h | h
    · subst h; simp
    · simp [h]

/-- C8 witness: the amended normalization facts at the concrete angles
`d = 720`, start = 45, sweep = 360. -/
theorem c8_nonzero_multiples_of_360_normalize_to_360_witness :
    ssd1306_NormalizeTo0_360 720 = 360 ∧
      dispDrawCircleShape_angles 45 360 = some (45 % 360, 360) :=
  c8_nonzero_multiples_of_360_normalize_to_360 720 45 360
    (by decide) (by decide) (by decide) (by decide)

/-! ## Framebuffer pixel access

`ssd1306_DrawPixel` (ssd1306.c lines 234–251) takes 0-based `uint8_t`
coordinates, rejects `x >= W || y >= H`, and sets/clears bit `y % 8` of the
byte at flat offset `x + (y / 8) * W`.

`dispDrawPixel` (display.c lines 263–303) takes 1-based `uint8_t`
coordinates, rejects only `x > W || y > H`, converts with `uint8_t`
subtraction `x - 1` / `y - 1` (which wraps to 255 for an input of 0), and
writes bit `y0 % 8` of `pages[y0 / 8].page[x0]`, i.e. the byte at flat offset
`(y0 / 8) * 128 + x0` inside `SFrameBuffer_t`. -/

/-- Pixel color (`SSD1306_COLOR` in ssd1306.h, `EColor_t` in display.h). -/
inductive Color where
  | Black
  | White
deriving DecidableEq, Repr

/-- Logical negation `!color` used by the glyph renderers. -/
def Color.invert : Color → Color
  | .Black => .White
  | .White => .Black

/-- Single-byte store: buffer `b` with the byte at flat offset `i` replaced
by `v`. -/
def writeAt (b : Buffer) (i v : Nat) : Buffer :=
  fun j => if j = i then v else b j

/-- Byte update for drawing one pixel: set or clear bit `k`
(`|= 1 << k` resp. `&= ~(1 << k)` on a `uint8_t`). -/
def pixelByteWrite (v k : Nat) (color : Color) : Nat :=
  match color with
  | .White => v ||| (1 <<< k)
  | .Black => v &&& (255 ^^^ (1 <<< k))

/-- Model of `ssd1306_DrawPixel` (ssd1306.c lines 234–251). -/
def ssd1306_DrawPixel (b : Buffer) (x y : Nat) (color : Color) : Buffer :=
  if x ≥ SSD1306_WIDTH ∨ y ≥ SSD1306_HEIGHT then
    b
  else
    writeAt b (x + (y / 8) * SSD1306_WIDTH)
      (pixelByteWrite (b (x + (y / 8) * SSD1306_WIDTH)) (y % 8) color)

/-- Read back the framebuffer bit addressed by the 0-based pixel `(x, y)`. -/
def getPx (b : Buffer) (x y : Nat) : Bool :=
  (b (x + (y / 8) * SSD1306_WIDTH)).testBit (y % 8)

/-- Bit a pixel write is expected to produce: `White` sets, `Black` clears. -/
def Color.bit : Color → Bool
  | .Black => false
  | .White => true

/-- Model of `dispDrawPixel` (display.c lines 263–303); the buffer argument is
the front framebuffer (`pFrontBuffer`), addressed from flat offset 0, and the
function wraps the `uint8_t` conversions explicitly. -/
def dispDrawPixel (b : Buffer) (x y : Nat) (color : Color) : Buffer :=
  if x > SSD1306_WIDTH ∨ y > SSD1306_HEIGHT then
    b
  else
    let x0 := (x + 255) % 256
    let y0 := (y + 255) % 256
    let page := y0 / 8
    let bitPosition := y0 % 8
    writeAt b (page * 128 + x0)
      (pixelByteWrite (b (page * 128 + x0)) bitPosition color)

theorem writeAt_apply (b : Buffer) (i v j : Nat) :
    writeAt b i v j = if j = i then v else b j := rfl

theorem testBit_pixelByteWrite_self (v k : Nat) (hk : k < 8) (c : Color) :
    (pixelByteWrite v k c).testBit k = c.bit := by
  cases c with
  | White =>
    rw [pixelByteWrite, Nat.one_shiftLeft, Nat.testBit_or, Nat.testBit_two_pow_self]
    simp [Color.bit]
  | Black =>
    rw [pixelByteWrite, Nat.one_shiftLeft, Nat.testBit_and, Nat.testBit_xor,
      Nat.testBit_two_pow_self]
    rw [show (255 : Nat) = 2 ^ 8 - 1 by norm_num, Nat.testBit_two_pow_sub_one]
    simp [hk, Color.bit]

theorem testBit_pixelByteWrite_other (v k k' : Nat) (hk' : k' < 8)
    (hne : k' ≠ k) (c : Color) :
    (pixelByteWrite v k c).testBit k' = v.testBit k' := by
  cases c with
  | White =>
    rw [pixelByteWrite, Nat.one_shiftLeft, Nat.testBit_or,
      Nat.testBit_two_pow_of_ne (Ne.symm hne)]
    simp
  | Black =>
    rw [pixelByteWrite, Nat.one_shiftLeft, Nat.testBit_and, Nat.testBit_xor,
      Nat.testBit_two_pow_of_ne (Ne.symm hne)]
    rw [show (255 : Nat) = 2 ^ 8 - 1 by norm_num, Nat.testBit_two_pow_sub_one]
    simp [hk']

/-- Read-back of `ssd1306_DrawPixel`: the addressed bit takes the drawn color,
every other pixel of the panel is untouched. -/
theorem getPx_ssd1306_DrawPixel (b : Buffer) (x y x' y' : Nat) (c : Color)
    (hx : x < SSD1306_WIDTH) (hy : y < SSD1306_HEIGHT) (hx' : x' < SSD1306_WIDTH) :
    getPx (ssd1306_DrawPixel b x y c) x' y' =
      if x' = x ∧ y' = y then c.bit else getPx b x' y' := by
  rw [ssd1306_DrawPixel, if_neg (by omega)]
  unfold getPx
  rw [writeAt_apply]
  by_cases heq : x' = x ∧ y' = y
  · obtain ⟨hex, hey⟩ := heq
    subst hex; subst hey
    have hself := testBit_pixelByteWrite_self (b (x' + y' / 8 * SSD1306_WIDTH))
      (y' % 8) (Nat.mod_lt _ (by omega)) c
    simp [hself]
  · rw [if_neg heq]
    by_cases hbyte : x' + (y' / 8) * SSD1306_WIDTH = x + (y / 8) * SSD1306_WIDTH
    · have h128 : x' + y' / 8 * 128 = x + y / 8 * 128 := hbyte
      have hx128 : x < 128 := hx
      have hx'128 : x' < 128 := hx'
      have hxx : x' = x ∧ y' / 8 = y / 8 := by
        constructor <;> omega
      have hbit : y' % 8 ≠ y % 8 := by
        have h2 := hxx.2
        have hne : y' ≠ y := fun h => heq ⟨hxx.1, h⟩
        omega
      rw [if_pos hbyte, ← hbyte]
      exact testBit_pixelByteWrite_other _ _ _ (Nat.mod_lt _ (by omega)) hbit c
    · rw [if_neg hbyte]

/-- C2: the claim holds for `ssd1306_DrawPixel`, but `dispDrawPixel` violates
it.  In `dispDrawPixel`'s 1-based convention the coordinates `(0, 5)` and
`(5, 0)` are out of range, yet both pass the `x > 128 || y > 64` bounds check;
the `uint8_t` conversion `x - 1` then wraps to 255.  Drawing `(0, 5)` writes
flat byte 255 (column 255 of page 0 — a different pixel of the framebuffer),
and drawing `(5, 0)` writes flat byte `31 * 128 + 4 = 3972`, which lies beyond
the 1024-byte framebuffer (and beyond the whole 2048-byte `SFrameBuffer_t`):
not a silent no-op, and a write outside the buffer. -/
theorem c2_dispDrawPixel_out_of_range_writes :
    (dispDrawPixel (fun _ => 0) 0 5 .White) 255 = 16 ∧ (fun _ => (0 : Nat)) 255 = 0 ∧
      (dispDrawPixel (fun _ => 0) 5 0 .White) 3972 = 128 ∧
      SSD1306_BUFFER_SIZE ≤ 3972 := by
  decide

/-! ## Rectangle inversion (`ssd1306_InvertRectangle`, ssd1306.c lines 604–640)

The C function validates `x2 < W && y2 < H` and `x1 <= x2 && y1 <= y2`
(returning `SSD1306_ERR` before touching the buffer otherwise), and then XORs
masks over the region.  The sequence of `buffer[i] ^= mask` stores is made
explicit here as a script of `(offset, mask)` pairs, in the order the C loops
produce them, which `applyXors` folds over the buffer. -/

/-- Result status (`SSD1306_Error_t`). -/
inductive SSD1306_Error_t where
  | ok
  | err
deriving DecidableEq, Repr

/-- XOR the byte at flat offset `i` with mask `m` (`buffer[i] ^= m` on a
`uint8_t`, masks below are already reduced to 8 bits). -/
def xorAt (b : Buffer) (i m : Nat) : Buffer :=
  fun j => if j = i then b j ^^^ m else b j

/-- Run a script of `(offset, mask)` XOR stores left to right. -/
def applyXors (b : Buffer) (s : List (Nat × Nat)) : Buffer :=
  s.foldl (fun b p => xorAt b p.1 p.2) b

/-- Middle loop of the multi-page case (ssd1306.c lines 622–626): starting at
offset `i`, XOR `0xFF` into every 128th byte while `i < stop`; also returns
the value of `i` when the loop exits, which the C code uses for the final
partial-page store. -/
def invertRect_colLoop (i stop : Nat) : List (Nat × Nat) × Nat :=
  if i < stop then
    let r := invertRect_colLoop (i + 128) stop
    ((i, 255) :: r.1, r.2)
  else
    ([], i)
termination_by stop - i
decreasing_by omega

/-- XOR stores performed by `ssd1306_InvertRectangle` after validation, in
program order (ssd1306.c lines 614–638). -/
def ssd1306_InvertRectangle_script (x1 y1 x2 y2 : Nat) : List (Nat × Nat) :=
  if y1 / 8 ≠ y2 / 8 then
    (List.range' x1 (x2 + 1 - x1)).flatMap (fun x =>
      let i0 := x + (y1 / 8) * SSD1306_WIDTH
      let r := invertRect_colLoop (i0 + SSD1306_WIDTH) (x + (y2 / 8) * SSD1306_WIDTH)
      (i0, (255 <<< (y1 % 8)) % 256) :: (r.1 ++ [(r.2, 255 >>> (7 - y2 % 8))]))
  else
    let mask := ((255 <<< (y1 % 8)) % 256) &&& (255 >>> (7 - y2 % 8))
    (List.range' (x1 + (y1 / 8) * SSD1306_WIDTH)
        ((x2 + (y2 / 8) * SSD1306_WIDTH) + 1 - (x1 + (y1 / 8) * SSD1306_WIDTH))).map
      (fun i => (i, mask))

/-- Model of `ssd1306_InvertRectangle` (ssd1306.c lines 604–640): status and
resulting buffer. -/
def ssd1306_InvertRectangle (b : Buffer) (x1 y1 x2 y2 : Nat) :
    SSD1306_Error_t × Buffer :=
  if x2 ≥ SSD1306_WIDTH ∨ y2 ≥ SSD1306_HEIGHT then
    (.err, b)
  else if x1 > x2 ∨ y1 > y2 then
    (.err, b)
  else
    (.ok, applyXors b (ssd1306_InvertRectangle_script x1 y1 x2 y2))

/-- Accumulated XOR mask a script applies to the byte at offset `j`. -/
def scriptMask : List (Nat × Nat) → Nat → Nat
  | [], _ => 0
  | p :: t, j => if p.1 = j then p.2 ^^^ scriptMask t j else scriptMask t j

theorem xorAt_apply (b : Buffer) (i m j : Nat) :
    xorAt b i m j = if j = i then b j ^^^ m else b j := rfl

theorem applyXors_apply (s : List (Nat × Nat)) :
    ∀ (b : Buffer) (j : Nat), applyXors b s j = b j ^^^ scriptMask s j := by
  induction s with
  | nil =>
    intro b j
    simp [applyXors, scriptMask]
  | cons p t ih =>
    intro b j
    have hstep : applyXors b (p :: t) = applyXors (xorAt b p.1 p.2) t := rfl
    rw [hstep, ih, xorAt_apply, scriptMask]
    by_cases h : p.1 = j
    · subst h
      rw [if_pos rfl, if_pos rfl, Nat.xor_assoc]
    · rw [if_neg (fun hh => h hh.symm), if_neg h]

/-- Applying the same XOR script twice restores every byte. -/
theorem applyXors_involutive (s : List (Nat × Nat)) (b : Buffer) (j : Nat) :
    applyXors (applyXors b s) s j = b j := by
  rw [applyXors_apply, applyXors_apply, Nat.xor_assoc, Nat.xor_self, Nat.xor_zero]

/-- C5: for every valid rectangle (`x1 ≤ x2`, `y1 ≤ y2`, inside the panel)
`ssd1306_InvertRectangle` succeeds, and applying it to the same rectangle
twice restores the framebuffer byte-for-byte; for every invalid rectangle it
returns `SSD1306_ERR` with the framebuffer completely untouched. -/
theorem c5_invertRectangle_involution_and_validation (b : Buffer) (x1 y1 x2 y2 : Nat) :
    (x1 ≤ x2 → y1 ≤ y2 → x2 < SSD1306_WIDTH → y2 < SSD1306_HEIGHT →
      (ssd1306_InvertRectangle b x1 y1 x2 y2).1 = .ok ∧
        ∀ j, (ssd1306_InvertRectangle
               (ssd1306_InvertRectangle b x1 y1 x2 y2).2 x1 y1 x2 y2).2 j = b j) ∧
    (¬(x1 ≤ x2 ∧ y1 ≤ y2 ∧ x2 < SSD1306_WIDTH ∧ y2 < SSD1306_HEIGHT) →
      ssd1306_InvertRectangle b x1 y1 x2 y2 = (.err, b)) := by
  constructor
  · intro h1 h2 h3 h4
    have hvalid : ssd1306_InvertRectangle b x1 y1 x2 y2 =
        (.ok, applyXors b (ssd1306_InvertRectangle_script x1 y1 x2 y2)) := by
      rw [ssd1306_InvertRectangle, if_neg (by omega), if_neg (by omega)]
    refine ⟨by rw [hvalid], ?_⟩
    intro j
    rw [hvalid]
    have hvalid2 : ssd1306_InvertRectangle
        (applyXors b (ssd1306_InvertRectangle_script x1 y1 x2 y2)) x1 y1 x2 y2 =
        (.ok, applyXors (applyXors b (ssd1306_InvertRectangle_script x1 y1 x2 y2))
          (ssd1306_InvertRectangle_script x1 y1 x2 y2)) := by
      rw [ssd1306_InvertRectangle, if_neg (by omega), if_neg (by omega)]
    rw [hvalid2]
    exact applyXors_involutive _ b j
  · intro hinv
    rw [ssd1306_InvertRectangle]
    by_cases hg : x2 ≥ SSD1306_WIDTH ∨ y2 ≥ SSD1306_HEIGHT
    · rw [if_pos hg]
    · rw [if_neg hg, if_pos (by omega)]

/-- C5 witness: the rectangle `(3, 2)–(40, 21)` (spanning several pages) on
the buffer that is 7 everywhere: validation succeeds and double inversion
restores byte 300. -/
theorem c5_invertRectangle_involution_and_validation_witness :
    (ssd1306_InvertRectangle (fun _ => 7) 3 2 40 21).1 = .ok ∧
      (ssd1306_InvertRectangle
        (ssd1306_InvertRectangle (fun _ => 7) 3 2 40 21).2 3 2 40 21).2 300 = 7 :=
  ⟨((c5_invertRectangle_involution_and_validation (fun _ => 7) 3 2 40 21).1
      (by decide) (by decide) (by decide) (by decide)).1,
   ((c5_invertRectangle_involution_and_validation (fun _ => 7) 3 2 40 21).1
      (by decide) (by decide) (by decide) (by decide)).2 300⟩

/-! ## Display session (`src/nbtgTimer/src/display.c`)

`SDisplayContext_t` holds the enable flags, the dirty flag `fbModified`, the
in-flight flag `DMAInProgress` and the two framebuffer instances with the
front/back pointers; the pointer pair is modelled by `frontIsBuf1`.  The ghost
field `inFlight` counts bus transfers the engine has started and not yet
completed (incremented when `dispSyncFramebuffer` calls
`i2cTransferDisplayDMA`/`spiTransferBlockDMA`, decremented when the hardware
completion that invokes `dispDMACallback` fires). -/

/-- Model of `SDisplayContext_t` plus the two framebuffers of
`SFrameBuffer_t` (display.c lines 82–126). -/
structure SDisplayContext where
  isEnabled : Bool
  DMAIsEnabled : Bool
  DMAInProgress : Bool
  fbModified : Bool
  frontIsBuf1 : Bool
  buf1 : Buffer
  buf2 : Buffer
  inFlight : Nat

/-- Framebuffer instance `pFrontBuffer` points to. -/
def SDisplayContext.front (c : SDisplayContext) : Buffer :=
  if c.frontIsBuf1 then c.buf1 else c.buf2

/-- Framebuffer instance `pBackBuffer` points to. -/
def SDisplayContext.back (c : SDisplayContext) : Buffer :=
  if c.frontIsBuf1 then c.buf2 else c.buf1

/-- Model of `dispSyncFramebuffer` (display.c lines 726–741): bail out unless
the display is enabled, DMA is enabled, the framebuffer was modified, and no
DMA is in progress; otherwise mark the transfer in progress, reset
`transferred`, and start the DMA transfer of the front buffer (the start is
recorded in the ghost `inFlight` counter). -/
def dispSyncFramebuffer (c : SDisplayContext) : SDisplayContext :=
  if !c.isEnabled || !c.DMAIsEnabled || !c.fbModified || c.DMAInProgress then
    c
  else
    { c with DMAInProgress := true, inFlight := c.inFlight + 1 }

/-- Model of `dispDMACallback` (display.c lines 748–759).  The `isComplete`
argument is explicitly discarded by the C code (`(void)isComplete`); the
callback copies the front buffer into the back buffer (`memcpy`), swaps the
front/back pointers, repoints the DMA context at the new front buffer, and
clears `DMAInProgress` and `fbModified`. -/
def dispDMACallback (isComplete : Bool) (c : SDisplayContext) : SDisplayContext :=
  if c.frontIsBuf1 then
    { c with buf2 := c.buf1, frontIsBuf1 := false,
             DMAInProgress := false, fbModified := false }
  else
    { c with buf1 := c.buf2, frontIsBuf1 := true,
             DMAInProgress := false, fbModified := false }

/-- Events driving the display session. -/
inductive DispEvent where
  | sync
  | complete (ok : Bool)
  | draw
  | toggle (enable : Bool)

/-- One step of the display session.  `sync` is the framerate-timer call of
`dispSyncFramebuffer`; `complete ok` is the hardware DMA interrupt invoking
`dispDMACallback` — it can only fire while a transfer is in flight, and it
consumes that transfer; `draw` is any drawing call (sets `fbModified`,
display.c line 302); `toggle` is `toggleDisplay` (display.c lines 244–256). -/
def dispStep (c : SDisplayContext) : DispEvent → SDisplayContext
  | .sync => dispSyncFramebuffer c
  | .complete ok =>
      if 0 < c.inFlight then
        dispDMACallback ok { c with inFlight := c.inFlight - 1 }
      else c
  | .draw => { c with fbModified := true }
  | .toggle e => { c with isEnabled := e }

/-- State after `initDisplay` (display.c lines 189–237): both buffers zeroed,
buffer1 is the front buffer, no transfer in flight, nothing modified, display
and DMA enabled. -/
def initDisplayContext : SDisplayContext where
  isEnabled := true
  DMAIsEnabled := true
  DMAInProgress := false
  fbModified := false
  frontIsBuf1 := true
  buf1 := fun _ => 0
  buf2 := fun _ => 0
  inFlight := 0

/-- Run the session from `initDisplayContext` over a list of events. -/
def dispRun (evs : List DispEvent) : SDisplayContext :=
  evs.foldl dispStep initDisplayContext

theorem dispRun_invariant (evs : List DispEvent) :
    (dispRun evs).inFlight = if (dispRun evs).DMAInProgress then 1 else 0 := by
  suffices h : ∀ c : SDisplayContext,
      (c.inFlight = if c.DMAInProgress then 1 else 0) →
      ∀ e, ((dispStep c e).inFlight = if (dispStep c e).DMAInProgress then 1 else 0) by
    rw [dispRun]
    induction evs using List.reverseRecOn with
    | nil => rfl
    | append_singleton t e ih =>
      rw [List.foldl_append, List.foldl_cons, List.foldl_nil]
      exact h _ ih e
  intro c hc e
  cases e with
  | sync =>
    rw [dispStep, dispSyncFramebuffer]
    by_cases hg : !c.isEnabled || !c.DMAIsEnabled || !c.fbModified || c.DMAInProgress
    · rw [if_pos hg]; exact hc
    · rw [if_neg hg]
      simp only [Bool.or_eq_true, Bool.not_eq_true', not_or, Bool.not_eq_false,
        Bool.not_eq_true] at hg
      simp [hg.2, hc]
  | complete ok =>
    rw [dispStep]
    by_cases hg : 0 < c.inFlight
    · have hdma : c.DMAInProgress = true := by
        by_contra hcontra
        simp only [Bool.not_eq_true] at hcontra
        rw [hcontra] at hc
        simp at hc
        omega
      have hone : c.inFlight = 1 := by
        rw [hdma] at hc
        simpa using hc
      rw [if_pos hg, dispDMACallback]
      by_cases hf : ({ c with inFlight := c.inFlight - 1 } : SDisplayContext).frontIsBuf1
      · rw [if_pos hf]
        simp
        omega
      · rw [if_neg hf]
        simp
        omega
    · rw [if_neg hg]; exact hc
  | draw =>
    rw [dispStep]
    exact hc
  | toggle e =>
    rw [dispStep]
    exact hc

/-- C4: a framebuffer sync starts a transfer only when the display is
enabled, no transfer is currently in flight, and the buffer was modified
since the last sync (the code additionally requires DMA to be enabled); and
along every event sequence from the initialized state, at most one transfer
is ever in flight. -/
theorem c4_sync_gating_and_single_transfer_in_flight :
    (∀ c : SDisplayContext, c.inFlight < (dispSyncFramebuffer c).inFlight →
      c.isEnabled = true ∧ c.DMAInProgress = false ∧ c.fbModified = true) ∧
    (∀ evs : List DispEvent, (dispRun evs).inFlight ≤ 1) := by
  constructor
  · intro c hstart
    rw [dispSyncFramebuffer] at hstart
    by_cases hg : !c.isEnabled || !c.DMAIsEnabled || !c.fbModified || c.DMAInProgress
    · rw [if_pos hg] at hstart
      omega
    · simp only [Bool.or_eq_true, Bool.not_eq_true', not_or, Bool.not_eq_false,
        Bool.not_eq_true] at hg
      exact ⟨hg.1.1.1, hg.2, hg.1.2⟩
  · intro evs
    have h := dispRun_invariant evs
    by_cases hp : (dispRun evs).DMAInProgress <;> simp [hp] at h <;> omega

/-- C4 witness: in the ready state (enabled, modified, idle) the sync starts
a transfer, so the gating conditions hold there; and the four-event trace
draw–sync–complete–sync keeps at most one transfer in flight. -/
theorem c4_sync_gating_and_single_transfer_in_flight_witness :
    (dispRun [.draw, .sync, .complete true, .sync]).inFlight ≤ 1 ∧
      ({ initDisplayContext with fbModified := true } : SDisplayContext).isEnabled = true ∧
      ({ initDisplayContext with fbModified := true } : SDisplayContext).DMAInProgress = false ∧
      ({ initDisplayContext with fbModified := true } : SDisplayContext).fbModified = true :=
  ⟨c4_sync_gating_and_single_transfer_in_flight.2 [.draw, .sync, .complete true, .sync],
   c4_sync_gating_and_single_transfer_in_flight.1
     { initDisplayContext with fbModified := true } (by decide)⟩

theorem dispDMACallback_bufs_eq (c : SDisplayContext) (ok : Bool) (j : Nat) :
    (dispDMACallback ok c).buf1 j = (dispDMACallback ok c).buf2 j := by
  by_cases hf : c.frontIsBuf1
  · rw [dispDMACallback, if_pos hf]
  · rw [dispDMACallback, if_neg hf]

theorem dispDMACallback_front_content (c : SDisplayContext) (ok : Bool) (j : Nat) :
    (dispDMACallback ok c).front j = c.front j := by
  by_cases hf : c.frontIsBuf1
  · rw [dispDMACallback, if_pos hf, SDisplayContext.front, SDisplayContext.front,
      if_pos hf]
    simp
  · rw [dispDMACallback, if_neg hf]
    simp only [Bool.not_eq_true] at hf
    rw [SDisplayContext.front, SDisplayContext.front, hf]
    simp

theorem dispDMACallback_flips_front (c : SDisplayContext) (ok : Bool) :
    (dispDMACallback ok c).frontIsBuf1 = !c.frontIsBuf1 := by
  by_cases hf : c.frontIsBuf1
  · rw [dispDMACallback, if_pos hf]
    simp [hf]
  · rw [dispDMACallback, if_neg hf]
    simp only [Bool.not_eq_true] at hf
    simp [hf]

/-- C9: after every run of `dispDMACallback` the two framebuffer instances
hold byte-for-byte identical contents, and the new front buffer holds exactly
the bytes the old front buffer (the frame just transferred) held: the front
is copied into the back before the pointers are exchanged, so drawing resumes
on a copy of the transferred frame, not on the stale previous frame. -/
theorem c9_callback_leaves_buffers_identical (c : SDisplayContext)
    (isComplete : Bool) :
    (∀ j, (dispDMACallback isComplete c).buf1 j = (dispDMACallback isComplete c).buf2 j) ∧
      (∀ j, (dispDMACallback isComplete c).front j = c.front j) ∧
      (dispDMACallback isComplete c).frontIsBuf1 = !c.frontIsBuf1 :=
  ⟨dispDMACallback_bufs_eq c isComplete,
   dispDMACallback_front_content c isComplete,
   dispDMACallback_flips_front c isComplete⟩

/-- Concrete display context with a transfer of the front buffer (buffer 1,
all bytes 1) in flight; the back buffer (all bytes 0) holds the previous
successfully synced frame. -/
def c3_failedTransferCtx : SDisplayContext where
  isEnabled := true
  DMAIsEnabled := true
  DMAInProgress := true
  fbModified := true
  frontIsBuf1 := true
  buf1 := fun _ => 1
  buf2 := fun _ => 0
  inFlight := 1

/-- C3, as the claim states it, fails on the code: on a DMA transfer error
the interrupt handler does invoke the callback with success = `false`, but
`dispDMACallback` discards the flag and swaps anyway — the buffer pair is
promoted although the sync did not complete successfully, and the new front
holds the failed frame's bytes (1), not the previous frame's bytes (0), so
the previous frame does not remain current in the framebuffer state. -/
theorem c3_failed_transfer_still_promotes_buffer :
    DMA1_Channel1_IRQHandler false true 1024 255 255 = (255, .invokeCallback false) ∧
      (dispDMACallback false c3_failedTransferCtx).frontIsBuf1 = false ∧
      (dispDMACallback false c3_failedTransferCtx).front 0 = 1 ∧
      c3_failedTransferCtx.back 0 = 0 := by
  refine ⟨rfl, rfl, rfl, rfl⟩

/-- C3 (amended): a hardware transfer error does invoke the completion
callback with success = `false` (the status reaches the display layer), but
`dispDMACallback` ignores the flag — its behaviour is independent of the
status — and unconditionally copies the front buffer into the back buffer
and swaps the pointers; because the copy happens before the swap, the two
buffer instances are byte-for-byte identical afterwards (no torn frame
contents), yet the failed frame, not the previous frame, is the front for the
next draw cycle, and the failure status is not surfaced beyond the
callback. -/
theorem c3_error_callback_discards_status (len tr lc : Nat)
    (c : SDisplayContext) (ok : Bool) :
    DMA1_Channel1_IRQHandler false true len tr lc = (tr, .invokeCallback false) ∧
      dispDMACallback ok c = dispDMACallback true c ∧
      (∀ j, (dispDMACallback ok c).buf1 j = (dispDMACallback ok c).buf2 j) ∧
      (∀ j, (dispDMACallback ok c).front j = c.front j) ∧
      (dispDMACallback ok c).frontIsBuf1 = !c.frontIsBuf1 :=
  ⟨rfl, rfl, dispDMACallback_bufs_eq c ok, dispDMACallback_front_content c ok,
   dispDMACallback_flips_front c ok⟩

/-! ## Glyph rendering (`ssd1306_WriteChar`, ssd1306.c lines 259–295)

After validating the character (printable ASCII 32–126) and the remaining
space on the line, the function draws *every* pixel of the `width × height`
glyph cell through `ssd1306_DrawPixel`: bit `15 - j` of the font row word
selects the requested color, otherwise the opposite color (`!color`).  The
sequence of `ssd1306_DrawPixel` calls is modelled as an op list in program
order (rows outer, columns inner), folded over the buffer. -/

/-- Font descriptor (`SSD1306_Font_t`): `data` holds the `uint16_t` rows,
`char_width` the optional per-glyph advance table. -/
structure SSD1306_Font where
  width : Nat
  height : Nat
  data : Nat → Nat
  char_width : Option (Nat → Nat)

/-- Run a list of `(x, y, color)` pixel draws left to right. -/
def applyPixelOps (b : Buffer) (ops : List (Nat × Nat × Color)) : Buffer :=
  ops.foldl (fun b p => ssd1306_DrawPixel b p.1 p.2.1 p.2.2) b

/-- Pixel draws of one glyph row `i`: for each column `j`, the color is the
requested one iff `(b << j) & 0x8000` is nonzero for the row word `b`
(ssd1306.c lines 277–287). -/
def ssd1306_WriteChar_rowOps (Font : SSD1306_Font) (cx cy ch : Nat)
    (color : Color) (i : Nat) : List (Nat × Nat × Color) :=
  (List.range Font.width).map (fun j =>
    (cx + j, cy + i,
      if (Font.data ((ch - 32) * Font.height + i) <<< j) &&& 32768 ≠ 0 then color
      else color.invert))

/-- Pixel draws of the whole glyph cell, in program order (ssd1306.c lines
274–288). -/
def ssd1306_WriteChar_ops (Font : SSD1306_Font) (cx cy ch : Nat)
    (color : Color) : List (Nat × Nat × Color) :=
  (List.range Font.height).flatMap (ssd1306_WriteChar_rowOps Font cx cy ch color)

/-- Model of `ssd1306_WriteChar` (ssd1306.c lines 259–295): `none` when the
character is rejected (returns 0), otherwise the updated buffer and the new
cursor X (`CurrentX` advanced by the per-glyph width when a `char_width`
table is present, else by `Font.width`). -/
def ssd1306_WriteChar (b : Buffer) (Font : SSD1306_Font) (cx cy ch : Nat)
    (color : Color) : Option (Buffer × Nat) :=
  if ch < 32 ∨ 126 < ch then
    none
  else if SSD1306_WIDTH < cx + Font.width ∨ SSD1306_HEIGHT < cy + Font.height then
    none
  else
    some (applyPixelOps b (ssd1306_WriteChar_ops Font cx cy ch color),
      cx + (match Font.char_width with
            | some cw => cw (ch - 32)
            | none => Font.width))

theorem applyPixelOps_append (b : Buffer) (l1 l2 : List (Nat × Nat × Color)) :
    applyPixelOps b (l1 ++ l2) = applyPixelOps (applyPixelOps b l1) l2 :=
  List.foldl_append _ _ _ _

/-- Draws that never touch the pixel being read leave its bit unchanged. -/
theorem getPx_applyPixelOps_untouched (x' y' : Nat) (hx' : x' < SSD1306_WIDTH)
    (ops : List (Nat × Nat × Color)) :
    ∀ b : Buffer,
      (∀ p ∈ ops, p.1 < SSD1306_WIDTH ∧ p.2.1 < SSD1306_HEIGHT ∧
        ¬(x' = p.1 ∧ y' = p.2.1)) →
      getPx (applyPixelOps b ops) x' y' = getPx b x' y' := by
  induction ops with
  | nil => intro b _; rfl
  | cons p t ih =>
    intro b hops
    obtain ⟨hpx, hpy, hpne⟩ := hops p (List.mem_cons_self p t)
    have hstep : applyPixelOps b (p :: t) =
        applyPixelOps (ssd1306_DrawPixel b p.1 p.2.1 p.2.2) t := rfl
    rw [hstep, ih _ (fun q hq => hops q (List.mem_cons_of_mem p hq)),
      getPx_ssd1306_DrawPixel _ _ _ _ _ _ hpx hpy hx', if_neg hpne]

/-- Splitting `List.range` around an interior point. -/
theorem range_split (n k : Nat) (hk : k < n) :
    List.range n =
      List.range k ++ [k] ++ (List.range (n - k - 1)).map (fun t => k + 1 + t) := by
  have h1 : n = k + (1 + (n - k - 1)) := by omega
  rw [h1, List.range_add, List.range_add]
  have h2 : List.range 1 = [0] := rfl
  rw [h2, List.map_append, List.map_map]
  simp [Function.comp, Nat.add_assoc]

theorem c10_writeChar_overwrites_whole_cell (b : Buffer) (Font : SSD1306_Font)
    (cx cy ch : Nat) (color : Color)
    (hch1 : 32 ≤ ch) (hch2 : ch ≤ 126)
    (hw : cx + Font.width ≤ SSD1306_WIDTH) (hh : cy + Font.height ≤ SSD1306_HEIGHT) :
    ssd1306_WriteChar b Font cx cy ch color =
      some (applyPixelOps b (ssd1306_WriteChar_ops Font cx cy ch color),
        cx + (match Font.char_width with
              | some cw => cw (ch - 32)
              | none => Font.width)) ∧
    ∀ i j, i < Font.height → j < Font.width →
      getPx (applyPixelOps b (ssd1306_WriteChar_ops Font cx cy ch color))
          (cx + j) (cy + i) =
        (if (Font.data ((ch - 32) * Font.height + i) <<< j) &&& 32768 ≠ 0 then color
         else color.invert).bit := by
  constructor
  · rw [ssd1306_WriteChar, if_neg (by omega), if_neg (by omega)]
  · intro i j hi hj
    have hx' : cx + j < SSD1306_WIDTH := by omega
    have hrows : List.range Font.height =
        List.range i ++ [i] ++ (List.range (Font.height - i - 1)).map
          (fun t => i + 1 + t) := range_split _ _ hi
    have hcols : List.range Font.width =
        List.range j ++ [j] ++ (List.range (Font.width - j - 1)).map
          (fun t => j + 1 + t) := range_split _ _ hj
    have hBside : ∀ p ∈ ((List.range (Font.height - i - 1)).map
          (fun t => i + 1 + t)).flatMap (ssd1306_WriteChar_rowOps Font cx cy ch color),
        p.1 < SSD1306_WIDTH ∧ p.2.1 < SSD1306_HEIGHT ∧
          ¬(cx + j = p.1 ∧ cy + i = p.2.1) := by
      intro p hp
      simp only [List.mem_flatMap, List.mem_map, List.mem_range] at hp
      obtain ⟨row, ⟨t, ht, hyeq⟩, hpmem⟩ := hp
      subst hyeq
      simp only [ssd1306_WriteChar_rowOps, List.mem_map, List.mem_range] at hpmem
      obtain ⟨j', hj', hpeq⟩ := hpmem
      subst hpeq
      refine ⟨?_, ?_, ?_⟩
      · show cx + j' < SSD1306_WIDTH
        omega
      · show cy + (i + 1 + t) < SSD1306_HEIGHT
        omega
      · intro hcontra
        have h2 : cy + i = cy + (i + 1 + t) := hcontra.2
        omega
    have hCside : ∀ p ∈ ((List.range (Font.width - j - 1)).map
          (fun t => j + 1 + t)).map (fun j' =>
            (cx + j', cy + i,
              if (Font.data ((ch - 32) * Font.height + i) <<< j') &&& 32768 ≠ 0 then color
              else color.invert)),
        p.1 < SSD1306_WIDTH ∧ p.2.1 < SSD1306_HEIGHT ∧
          ¬(cx + j = p.1 ∧ cy + i = p.2.1) := by
      intro p hp
      simp only [List.map_map, List.mem_map, List.mem_range, Function.comp] at hp
      obtain ⟨t, ht, hpeq⟩ := hp
      subst hpeq
      refine ⟨?_, ?_, ?_⟩
      · show cx + (j + 1 + t) < SSD1306_WIDTH
        omega
      · show cy + i < SSD1306_HEIGHT
        omega
      · intro hcontra
        have h1 : cx + j = cx + (j + 1 + t) := hcontra.1
        omega
    rw [ssd1306_WriteChar_ops, hrows, List.flatMap_append, List.flatMap_append,
      applyPixelOps_append, applyPixelOps_append,
      getPx_applyPixelOps_untouched (cx + j) (cy + i) hx' _ _ hBside,
      List.flatMap_cons, List.flatMap_nil, List.append_nil,
      ssd1306_WriteChar_rowOps, hcols, List.map_append, List.map_append,
      applyPixelOps_append, applyPixelOps_append,
      getPx_applyPixelOps_untouched (cx + j) (cy + i) hx' _ _ hCside,
      List.map_singleton]
    have hdraw : ∀ X : Buffer,
        applyPixelOps X
          [(cx + j, cy + i,
            if (Font.data ((ch - 32) * Font.height + i) <<< j) &&& 32768 ≠ 0 then color
            else color.invert)] =
          ssd1306_DrawPixel X (cx + j) (cy + i)
            (if (Font.data ((ch - 32) * Font.height + i) <<< j) &&& 32768 ≠ 0 then color
             else color.invert) := fun X => rfl
    rw [hdraw, getPx_ssd1306_DrawPixel _ _ _ _ _ _ hx' (by omega) hx',
      if_pos ⟨rfl, rfl⟩]

/-- C10 witness: a concrete 2×2 font whose rows are `0x8000` (leftmost bit
set), drawn at cursor (10, 10) with character 65 in white: the character is
accepted and every cell pixel is determined by its font bit. -/
theorem c10_writeChar_overwrites_whole_cell_witness :
    ssd1306_WriteChar (fun _ => 0)
        ⟨2, 2, fun _ => 32768, Option.none⟩ 10 10 65 .White =
      some (applyPixelOps (fun _ => 0)
        (ssd1306_WriteChar_ops ⟨2, 2, fun _ => 32768, Option.none⟩ 10 10 65 .White),
        10 + 2) ∧
    getPx (applyPixelOps (fun _ => 0)
        (ssd1306_WriteChar_ops ⟨2, 2, fun _ => 32768, Option.none⟩ 10 10 65 .White))
        (10 + 0) (10 + 0) =
      (if ((32768 : Nat) <<< 0) &&& 32768 ≠ 0 then Color.White
       else Color.White.invert).bit :=
  ⟨(c10_writeChar_overwrites_whole_cell (fun _ => 0) ⟨2, 2, fun _ => 32768, Option.none⟩
      10 10 65 .White (by decide) (by decide) (by decide) (by decide)).1,
   (c10_writeChar_overwrites_whole_cell (fun _ => 0) ⟨2, 2, fun _ => 32768, Option.none⟩
      10 10 65 .White (by decide) (by decide) (by decide) (by decide)).2
      0 0 (by decide) (by decide)⟩

/-! ## Bresenham line drawing

`dispDrawLine` (display.c lines 310–351) rejects lines with any endpoint
outside the 1-based ranges `1..128` / `1..64`, converts to 0-based `int16_t`
coordinates, and runs the halved-error Bresenham variant
(`err = (dx > dy ? dx : -dy) / 2`), drawing every visited point — including
both endpoints — through `dispDrawPixel({x0 + 1, y0 + 1})` and breaking after
the endpoint is drawn.  The loop is modelled with explicit fuel
`dx + dy + 1`; the theorems below show the loop reaches the endpoint within
that fuel (so the fuel never runs out on any accepted input).  All
intermediate `int16_t` values stay far inside the representable range
(`err ∈ [-dy, dx] ⊆ [-63, 127]` by the invariants proved below), so plain
`Int` models the C arithmetic exactly.

`ssd1306_Line` (ssd1306.c lines 322–350) is the classic variant
(`error = deltaX - deltaY`, `error2 = error * 2`) on `uint8_t` coordinates
(stepping wraps mod 256), and draws the `(x2, y2)` endpoint once before the
loop. -/

/-- Loop of `dispDrawLine` (display.c lines 330–350), returning the 1-based
pixels passed to `dispDrawPixel` in order.  Both step conditions test the
snapshot `e2` of `err` taken at the top of the iteration. -/
def dispDrawLine_loop (fuel : Nat) (x0 y0 x1 y1 dx dy sx sy err : Int) :
    List (Int × Int) :=
  match fuel with
  | 0 => []
  | f + 1 =>
    (x0 + 1, y0 + 1) ::
      (if x0 = x1 ∧ y0 = y1 then []
       else
         dispDrawLine_loop f
           (if err > -dx then x0 + sx else x0)
           (if err < dy then y0 + sy else y0)
           x1 y1 dx dy sx sy
           (if err < dy then (if err > -dx then err - dy else err) + dx
            else (if err > -dx then err - dy else err)))

/-- Model of `dispDrawLine` (display.c lines 310–351): the list of pixels
passed to `dispDrawPixel`, in order; the empty list when the bounds guard
rejects the line. -/
def dispDrawLine (xs ys xe ye : Nat) : List (Int × Int) :=
  if xs < 1 ∨ SSD1306_WIDTH < xs ∨ xe < 1 ∨ SSD1306_WIDTH < xe ∨
      ys < 1 ∨ SSD1306_HEIGHT < ys ∨ ye < 1 ∨ SSD1306_HEIGHT < ye then
    []
  else
    dispDrawLine_loop
      (((xe : Int) - (xs : Int)).natAbs + ((ye : Int) - (ys : Int)).natAbs + 1)
      ((xs : Int) - 1) ((ys : Int) - 1) ((xe : Int) - 1) ((ye : Int) - 1)
      (((xe : Int) - (xs : Int)).natAbs) (((ye : Int) - (ys : Int)).natAbs)
      (if (xs : Int) - 1 < (xe : Int) - 1 then 1 else -1)
      (if (ys : Int) - 1 < (ye : Int) - 1 then 1 else -1)
      (if (((ye : Int) - (ys : Int)).natAbs : Int) < (((xe : Int) - (xs : Int)).natAbs : Int)
       then (((((xe : Int) - (xs : Int)).natAbs) / 2 : Nat) : Int)
       else -(((((ye : Int) - (ys : Int)).natAbs) / 2 : Nat) : Int))

/-- Loop invariant argument, fast axis x (`dy < dx`): with `rx`/`ry` steps
remaining on each axis and the error invariant `0 ≤ err ≤ dx - 1`, the loop
draws the endpoint `(tx + 1, ty + 1)` within `rx + 1` iterations. -/
theorem bresLoop_reaches_of_dy_lt_dx
    (tx ty dx dy sx sy e0 : Int)
    (hdy0 : 0 ≤ dy) (hlt : dy < dx)
    (hsx : sx = 1 ∨ sx = -1)
    (he00 : 0 ≤ e0) (he01 : e0 ≤ dx - 1) :
    ∀ (rx ry fuel : Nat) (err : Int),
      (rx : Int) ≤ dx → (ry : Int) ≤ dy →
      err = e0 - (dx - rx) * dy + (dy - ry) * dx →
      0 ≤ err → err ≤ dx - 1 →
      rx + 1 ≤ fuel →
      (tx + 1, ty + 1) ∈
        dispDrawLine_loop fuel (tx - sx * rx) (ty - sy * ry) tx ty dx dy sx sy err := by
  intro rx
  induction rx with
  | zero =>
    intro ry fuel err hrx hry herr herr0 herr1 hfuel
    have herr' : err = e0 - dx * dy + (dy - ry) * dx := by
      rw [herr]; push_cast; ring
    have hry0 : ry = 0 := by
      by_contra hne
      have hry1 : (1 : Int) ≤ (ry : Int) := by
        have h1 : 1 ≤ ry := Nat.one_le_iff_ne_zero.mpr hne
        exact_mod_cast h1
      have hmul : (dy - (ry : Int)) * dx ≤ (dy - 1) * dx :=
        mul_le_mul_of_nonneg_right (by linarith) (by linarith)
      have hexp : (dy - 1) * dx = dx * dy - dx := by ring
      linarith
    subst hry0
    obtain ⟨f, rfl⟩ : ∃ f, fuel = f + 1 := ⟨fuel - 1, by omega⟩
    simp only [Nat.cast_zero, mul_zero, sub_zero, dispDrawLine_loop]
    exact List.mem_cons_self _ _
  | succ r ih =>
    intro ry fuel err hrx hry herr herr0 herr1 hfuel
    obtain ⟨f, rfl⟩ : ∃ f, fuel = f + 1 := ⟨fuel - 1, by omega⟩
    have hdx1 : (1 : Int) ≤ dx := by linarith
    have hrx' : ((r : Nat) : Int) ≤ dx := by push_cast at hrx ⊢; linarith
    have hne : ¬(tx - sx * ((r + 1 : Nat) : Int) = tx ∧ ty - sy * (ry : Int) = ty) := by
      intro hcontra
      have h1 := hcontra.1
      have h0 : sx * ((r + 1 : Nat) : Int) = 0 := by linarith
      rcases hsx with h | h <;> rw [h] at h0 <;> push_cast at h0 <;> omega
    simp only [dispDrawLine_loop]
    rw [if_neg hne]
    apply List.mem_cons_of_mem
    have hbx : err > -dx := by linarith
    have hxpos : tx - sx * ((r + 1 : Nat) : Int) + sx = tx - sx * ((r : Nat) : Int) := by
      push_cast; ring
    by_cases hby : err < dy
    · have hry1 : 1 ≤ ry := by
        by_contra hry0
        have h0 : ry = 0 := by omega
        subst h0
        have herr' : err = e0 + ((r + 1 : Nat) : Int) * dy := by
          rw [herr]; push_cast; ring
        have h1 : dy ≤ ((r + 1 : Nat) : Int) * dy :=
          le_mul_of_one_le_left hdy0 (by push_cast; omega)
        linarith
      have hrycast : ((ry - 1 : Nat) : Int) = (ry : Int) - 1 := by
        rw [Nat.cast_sub hry1]; push_cast; ring
      have hypos : ty - sy * (ry : Int) + sy = ty - sy * ((ry - 1 : Nat) : Int) := by
        rw [hrycast]; ring
      have herr2 : (err - dy) + dx =
          e0 - (dx - ((r : Nat) : Int)) * dy + (dy - ((ry - 1 : Nat) : Int)) * dx := by
        rw [herr, hrycast]; push_cast; ring
      simp only [if_pos hbx, if_pos hby]
      rw [hxpos, hypos]
      exact ih (ry - 1) f _ hrx' (by rw [hrycast]; linarith) herr2
        (by linarith) (by linarith) (by omega)
    · have herr2 : err - dy =
          e0 - (dx - ((r : Nat) : Int)) * dy + (dy - (ry : Int)) * dx := by
        rw [herr]; push_cast; ring
      have hdyle : dy ≤ err := by linarith
      simp only [if_pos hbx, if_neg hby]
      rw [hxpos]
      exact ih ry f _ hrx' hry herr2 (by linarith) (by linarith) (by omega)

/-- Loop invariant argument, fast axis y (`dx < dy`): with the error
invariant `1 - dy ≤ err ≤ 0`, the loop draws the endpoint within `ry + 1`
iterations. -/
theorem bresLoop_reaches_of_dx_lt_dy
    (tx ty dx dy sx sy e0 : Int)
    (hdx0 : 0 ≤ dx) (hlt : dx < dy)
    (hsy : sy = 1 ∨ sy = -1)
    (he00 : 0 ≤ e0) (he01 : e0 ≤ dy - 1) :
    ∀ (ry rx fuel : Nat) (err : Int),
      (rx : Int) ≤ dx → (ry : Int) ≤ dy →
      err = -e0 - (dx - rx) * dy + (dy - ry) * dx →
      1 - dy ≤ err → err ≤ 0 →
      ry + 1 ≤ fuel →
      (tx + 1, ty + 1) ∈
        dispDrawLine_loop fuel (tx - sx * rx) (ty - sy * ry) tx ty dx dy sx sy err := by
  intro ry
  induction ry with
  | zero =>
    intro rx fuel err hrx hry herr herr0 herr1 hfuel
    have herr' : err = -e0 + (rx : Int) * dy := by
      rw [herr]; push_cast; ring
    have hdy0 : (0 : Int) ≤ dy := by linarith
    have hrx0 : rx = 0 := by
      by_contra hne
      have hrx1 : (1 : Int) ≤ (rx : Int) := by
        have h1 : 1 ≤ rx := Nat.one_le_iff_ne_zero.mpr hne
        exact_mod_cast h1
      have hmul : dy ≤ (rx : Int) * dy := le_mul_of_one_le_left hdy0 hrx1
      linarith
    subst hrx0
    obtain ⟨f, rfl⟩ : ∃ f, fuel = f + 1 := ⟨fuel - 1, by omega⟩
    simp only [Nat.cast_zero, mul_zero, sub_zero, dispDrawLine_loop]
    exact List.mem_cons_self _ _
  | succ r ih =>
    intro rx fuel err hrx hry herr herr0 herr1 hfuel
    obtain ⟨f, rfl⟩ : ∃ f, fuel = f + 1 := ⟨fuel - 1, by omega⟩
    have hdy1 : (1 : Int) ≤ dy := by linarith
    have hry' : ((r : Nat) : Int) ≤ dy := by push_cast at hry ⊢; linarith
    have hne : ¬(tx - sx * (rx : Int) = tx ∧ ty - sy * ((r + 1 : Nat) : Int) = ty) := by
      intro hcontra
      have h1 := hcontra.2
      have h0 : sy * ((r + 1 : Nat) : Int) = 0 := by linarith
      rcases hsy with h | h <;> rw [h] at h0 <;> push_cast at h0 <;> omega
    simp only [dispDrawLine_loop]
    rw [if_neg hne]
    apply List.mem_cons_of_mem
    have hby : err < dy := by linarith
    have hypos : ty - sy * ((r + 1 : Nat) : Int) + sy = ty - sy * ((r : Nat) : Int) := by
      push_cast; ring
    by_cases hbx : err > -dx
    · have hrx1 : 1 ≤ rx := by
        by_contra hrx0
        have h0 : rx = 0 := by omega
        subst h0
        have herr' : err = -e0 - ((r + 1 : Nat) : Int) * dx := by
          rw [herr]; push_cast; ring
        have h1 : dx ≤ ((r + 1 : Nat) : Int) * dx :=
          le_mul_of_one_le_left hdx0 (by push_cast; omega)
        linarith
      have hrxcast : ((rx - 1 : Nat) : Int) = (rx : Int) - 1 := by
        rw [Nat.cast_sub hrx1]; push_cast; ring
      have hxpos : tx - sx * (rx : Int) + sx = tx - sx * ((rx - 1 : Nat) : Int) := by
        rw [hrxcast]; ring
      have herr2 : (err - dy) + dx =
          -e0 - (dx - ((rx - 1 : Nat) : Int)) * dy + (dy - ((r : Nat) : Int)) * dx := by
        rw [herr, hrxcast]; push_cast; ring
      simp only [if_pos hbx, if_pos hby]
      rw [hxpos, hypos]
      exact ih (rx - 1) f _ (by rw [hrxcast]; linarith) hry' herr2
        (by linarith) (by linarith) (by omega)
    · have herr2 : err + dx =
          -e0 - (dx - (rx : Int)) * dy + (dy - ((r : Nat) : Int)) * dx := by
        rw [herr]; push_cast; ring
      have hdxle : err ≤ -dx := by linarith
      simp only [if_neg hbx, if_pos hby]
      rw [hypos]
      exact ih rx f _ hrx hry' herr2 (by linarith) (by linarith) (by omega)

/-- Diagonal case (`dx = dy = d ≥ 1`): the error stays `-e0` and both axes
step every iteration. -/
theorem bresLoop_reaches_of_dx_eq_dy
    (tx ty d sx sy e0 : Int)
    (hd1 : 1 ≤ d)
    (hsx : sx = 1 ∨ sx = -1)
    (he00 : 0 ≤ e0) (he01 : e0 ≤ d - 1) :
    ∀ (r fuel : Nat), (r : Int) ≤ d → r + 1 ≤ fuel →
      (tx + 1, ty + 1) ∈
        dispDrawLine_loop fuel (tx - sx * r) (ty - sy * r) tx ty d d sx sy (-e0) := by
  intro r
  induction r with
  | zero =>
    intro fuel hr hfuel
    obtain ⟨f, rfl⟩ : ∃ f, fuel = f + 1 := ⟨fuel - 1, by omega⟩
    simp only [Nat.cast_zero, mul_zero, sub_zero, dispDrawLine_loop]
    exact List.mem_cons_self _ _
  | succ r ih =>
    intro fuel hr hfuel
    obtain ⟨f, rfl⟩ : ∃ f, fuel = f + 1 := ⟨fuel - 1, by omega⟩
    have hne : ¬(tx - sx * ((r + 1 : Nat) : Int) = tx ∧
        ty - sy * ((r + 1 : Nat) : Int) = ty) := by
      intro hcontra
      have h1 := hcontra.1
      have h0 : sx * ((r + 1 : Nat) : Int) = 0 := by linarith
      rcases hsx with h | h <;> rw [h] at h0 <;> push_cast at h0 <;> omega
    simp only [dispDrawLine_loop]
    rw [if_neg hne]
    apply List.mem_cons_of_mem
    have hbx : -e0 > -d := by linarith
    have hby : -e0 < d := by linarith
    have hxpos : tx - sx * ((r + 1 : Nat) : Int) + sx = tx - sx * ((r : Nat) : Int) := by
      push_cast; ring
    have hypos : ty - sy * ((r + 1 : Nat) : Int) + sy = ty - sy * ((r : Nat) : Int) := by
      push_cast; ring
    simp only [if_pos hbx, if_pos hby]
    rw [hxpos, hypos, show -e0 - d + d = -e0 by ring]
    exact ih f (by push_cast at hr ⊢; linarith) (by omega)

/-- Loop of `ssd1306_Line` (ssd1306.c lines 333–348): draws the current
point, then steps by the classic Bresenham rules with `error2 = error * 2`;
the `uint8_t` coordinate steps wrap mod 256. -/
def ssd1306_Line_loop (fuel : Nat) (x1 y1 x2 y2 : Nat)
    (deltaX deltaY sX sY error : Int) : List (Nat × Nat) :=
  match fuel with
  | 0 => []
  | f + 1 =>
    if x1 = x2 ∧ y1 = y2 then []
    else
      (x1, y1) ::
        ssd1306_Line_loop f
          (if error * 2 > -deltaY then
            (if sX = 1 then (x1 + 1) % 256 else (x1 + 255) % 256) else x1)
          (if error * 2 < deltaX then
            (if sY = 1 then (y1 + 1) % 256 else (y1 + 255) % 256) else y1)
          x2 y2 deltaX deltaY sX sY
          (if error * 2 < deltaX then
            (if error * 2 > -deltaY then error - deltaY else error) + deltaX
           else (if error * 2 > -deltaY then error - deltaY else error))

/-- Model of `ssd1306_Line` (ssd1306.c lines 322–350): the pixels passed to
`ssd1306_DrawPixel`, in order; the endpoint `(x2, y2)` is drawn first,
before the loop. -/
def ssd1306_Line (x1 y1 x2 y2 : Nat) : List (Nat × Nat) :=
  (x2, y2) ::
    ssd1306_Line_loop
      (((x2 : Int) - (x1 : Int)).natAbs + ((y2 : Int) - (y1 : Int)).natAbs + 1)
      x1 y1 x2 y2
      (((x2 : Int) - (x1 : Int)).natAbs) (((y2 : Int) - (y1 : Int)).natAbs)
      (if x1 < x2 then 1 else -1) (if y1 < y2 then 1 else -1)
      ((((x2 : Int) - (x1 : Int)).natAbs : Int) - (((y2 : Int) - (y1 : Int)).natAbs : Int))

/-- C6: every in-bounds `dispDrawLine` draws both endpoints inclusively; a
degenerate line with equal endpoints draws exactly the one pixel — in
particular `dispDrawLine(5,5,5,5)` produces exactly `[(5,5)]`, and so does
`ssd1306_Line 5 5 5 5`; `ssd1306_Line` always has both endpoints among its
drawn pixels. -/
theorem c6_line_draws_both_endpoints_and_degenerate_point :
    (∀ xs ys xe ye : Nat,
      1 ≤ xs → xs ≤ SSD1306_WIDTH → 1 ≤ ys → ys ≤ SSD1306_HEIGHT →
      1 ≤ xe → xe ≤ SSD1306_WIDTH → 1 ≤ ye → ye ≤ SSD1306_HEIGHT →
      ((xs : Int), (ys : Int)) ∈ dispDrawLine xs ys xe ye ∧
        ((xe : Int), (ye : Int)) ∈ dispDrawLine xs ys xe ye) ∧
    (∀ x y : Nat, 1 ≤ x → x ≤ SSD1306_WIDTH → 1 ≤ y → y ≤ SSD1306_HEIGHT →
      dispDrawLine x y x y = [((x : Int), (y : Int))]) ∧
    dispDrawLine 5 5 5 5 = [(5, 5)] ∧
    ssd1306_Line 5 5 5 5 = [(5, 5)] ∧
    (∀ x1 y1 x2 y2 : Nat,
      (x2, y2) ∈ ssd1306_Line x1 y1 x2 y2 ∧ (x1, y1) ∈ ssd1306_Line x1 y1 x2 y2) := by
  have hdeg : ∀ x y : Nat, 1 ≤ x → x ≤ SSD1306_WIDTH → 1 ≤ y → y ≤ SSD1306_HEIGHT →
      dispDrawLine x y x y = [((x : Int), (y : Int))] := by
    intro x y h1 h2 h3 h4
    have h2' : x ≤ 128 := h2
    have h4' : y ≤ 64 := h4
    have hguard : ¬(x < 1 ∨ SSD1306_WIDTH < x ∨ x < 1 ∨ SSD1306_WIDTH < x ∨
        y < 1 ∨ SSD1306_HEIGHT < y ∨ y < 1 ∨ SSD1306_HEIGHT < y) := by
      simp only [SSD1306_WIDTH, SSD1306_HEIGHT]
      omega
    rw [dispDrawLine, if_neg hguard]
    simp only [sub_self, Int.natAbs_zero]
    simp only [dispDrawLine_loop]
    simp
  have hssd : ∀ x1 y1 x2 y2 : Nat,
      (x2, y2) ∈ ssd1306_Line x1 y1 x2 y2 ∧ (x1, y1) ∈ ssd1306_Line x1 y1 x2 y2 := by
    intro x1 y1 x2 y2
    constructor
    · exact List.mem_cons_self _ _
    · by_cases heq : x1 = x2 ∧ y1 = y2
      · rw [ssd1306_Line, heq.1, heq.2]
        exact List.mem_cons_self _ _
      · rw [ssd1306_Line]
        apply List.mem_cons_of_mem
        simp only [ssd1306_Line_loop]
        rw [if_neg heq]
        exact List.mem_cons_self _ _
  refine ⟨?_, hdeg, ?_, ?_, hssd⟩
  · intro xs ys xe ye h1 h2 h3 h4 h5 h6 h7 h8
    have h2' : xs ≤ 128 := h2
    have h4' : ys ≤ 64 := h4
    have h6' : xe ≤ 128 := h6
    have h8' : ye ≤ 64 := h8
    have hguard : ¬(xs < 1 ∨ SSD1306_WIDTH < xs ∨ xe < 1 ∨ SSD1306_WIDTH < xe ∨
        ys < 1 ∨ SSD1306_HEIGHT < ys ∨ ye < 1 ∨ SSD1306_HEIGHT < ye) := by
      simp only [SSD1306_WIDTH, SSD1306_HEIGHT]
      omega
    rw [dispDrawLine, if_neg hguard]
    set dxN := ((xe : Int) - (xs : Int)).natAbs with hdxN
    set dyN := ((ye : Int) - (ys : Int)).natAbs with hdyN
    set sx : Int := if (xs : Int) - 1 < (xe : Int) - 1 then 1 else -1 with hsxdef
    set sy : Int := if (ys : Int) - 1 < (ye : Int) - 1 then 1 else -1 with hsydef
    constructor
    · -- the start endpoint is the first pixel drawn
      simp only [dispDrawLine_loop]
      have ha : (xs : Int) - 1 + 1 = (xs : Int) := by ring
      have hb : (ys : Int) - 1 + 1 = (ys : Int) := by ring
      rw [ha, hb]
      exact List.mem_cons_self _ _
    · have hsx_pm : sx = 1 ∨ sx = -1 := by
        by_cases h : (xs : Int) - 1 < (xe : Int) - 1
        · left; rw [hsxdef, if_pos h]
        · right; rw [hsxdef, if_neg h]
      have hsy_pm : sy = 1 ∨ sy = -1 := by
        by_cases h : (ys : Int) - 1 < (ye : Int) - 1
        · left; rw [hsydef, if_pos h]
        · right; rw [hsydef, if_neg h]
      have hsxdx : sx * (dxN : Int) = (xe : Int) - (xs : Int) := by
        by_cases h : (xs : Int) - 1 < (xe : Int) - 1
        · rw [hsxdef, if_pos h, one_mul, hdxN, Int.natAbs_of_nonneg (by linarith)]
        · rw [hsxdef, if_neg h, hdxN,
            show ((xe : Int) - (xs : Int)) = -((xs : Int) - (xe : Int)) by ring,
            Int.natAbs_neg, Int.natAbs_of_nonneg (by linarith)]
          ring
      have hsydy : sy * (dyN : Int) = (ye : Int) - (ys : Int) := by
        by_cases h : (ys : Int) - 1 < (ye : Int) - 1
        · rw [hsydef, if_pos h, one_mul, hdyN, Int.natAbs_of_nonneg (by linarith)]
        · rw [hsydef, if_neg h, hdyN,
            show ((ye : Int) - (ys : Int)) = -((ys : Int) - (ye : Int)) by ring,
            Int.natAbs_neg, Int.natAbs_of_nonneg (by linarith)]
          ring
      have hX0 : (xs : Int) - 1 = ((xe : Int) - 1) - sx * (dxN : Int) := by
        rw [hsxdx]; ring
      have hY0 : (ys : Int) - 1 = ((ye : Int) - 1) - sy * (dyN : Int) := by
        rw [hsydy]; ring
      rw [hX0, hY0]
      rcases Nat.lt_trichotomy dyN dxN with hcase | hcase | hcase
      · -- fast axis x
        have hcast : ((dyN : Int)) < (dxN : Int) := by exact_mod_cast hcase
        rw [if_pos hcast]
        have hm := bresLoop_reaches_of_dy_lt_dx ((xe : Int) - 1) ((ye : Int) - 1)
          (dxN : Int) (dyN : Int) sx sy ((dxN / 2 : Nat) : Int)
          (by exact_mod_cast Nat.zero_le dyN) hcast hsx_pm
          (by exact_mod_cast Nat.zero_le (dxN / 2)) (by omega)
          dxN dyN (dxN + dyN + 1) ((dxN / 2 : Nat) : Int)
          (le_refl _) (le_refl _)
          (by push_cast; ring)
          (by exact_mod_cast Nat.zero_le (dxN / 2)) (by omega)
          (by omega)
        simpa using hm
      · -- diagonal, or a single point
        by_cases hzero : dxN = 0
        · have hdy0 : dyN = 0 := by omega
          have hxeq : xe = xs := by
            rw [hdxN] at hzero
            have h0 := Int.natAbs_eq_zero.mp hzero
            omega
          have hyeq : ye = ys := by
            rw [hdyN] at hdy0
            have h0 := Int.natAbs_eq_zero.mp hdy0
            omega
          rw [hzero, hdy0, hxeq, hyeq]
          simp only [Nat.cast_zero, mul_zero, sub_zero, dispDrawLine_loop]
          simp
        · have hcastne : ¬((dyN : Int) < (dxN : Int)) := by
            exact_mod_cast (by omega : ¬(dyN < dxN))
          rw [if_neg hcastne, hcase]
          have hm := bresLoop_reaches_of_dx_eq_dy ((xe : Int) - 1) ((ye : Int) - 1)
            (dxN : Int) sx sy ((dxN / 2 : Nat) : Int)
            (by omega) hsx_pm (by exact_mod_cast Nat.zero_le (dxN / 2)) (by omega)
            dxN (dxN + dxN + 1) (le_refl _) (by omega)
          simpa using hm
      · -- fast axis y
        have hcastne : ¬((dyN : Int) < (dxN : Int)) := by
          exact_mod_cast (by omega : ¬(dyN < dxN))
        rw [if_neg hcastne]
        have hm := bresLoop_reaches_of_dx_lt_dy ((xe : Int) - 1) ((ye : Int) - 1)
          (dxN : Int) (dyN : Int) sx sy ((dyN / 2 : Nat) : Int)
          (by exact_mod_cast Nat.zero_le dxN) (by exact_mod_cast hcase) hsy_pm
          (by exact_mod_cast Nat.zero_le (dyN / 2)) (by omega)
          dyN dxN (dxN + dyN + 1) (-((dyN / 2 : Nat) : Int))
          (le_refl _) (le_refl _)
          (by push_cast; ring)
          (by omega) (by omega)
          (by omega)
        simpa using hm
  · have h55 := hdeg 5 5 (by decide) (by decide) (by decide) (by decide)
    simpa using h55
  · rw [ssd1306_Line]
    simp only [sub_self, Int.natAbs_zero]
    simp only [ssd1306_Line_loop]
    simp

/-- C6 witness: both endpoints of the concrete line (1,1)–(5,3) are among the
drawn pixels, and the degenerate line at (7,7) draws exactly that pixel. -/
theorem c6_line_draws_both_endpoints_and_degenerate_point_witness :
    ((1 : Int), (1 : Int)) ∈ dispDrawLine 1 1 5 3 ∧
      ((5 : Int), (3 : Int)) ∈ dispDrawLine 1 1 5 3 ∧
      dispDrawLine 7 7 7 7 = [((7 : Int), (7 : Int))] :=
  ⟨(c6_line_draws_both_endpoints_and_degenerate_point.1 1 1 5 3
      (by decide) (by decide) (by decide) (by decide)
      (by decide) (by decide) (by decide) (by decide)).1,
   (c6_line_draws_both_endpoints_and_degenerate_point.1 1 1 5 3
      (by decide) (by decide) (by decide) (by decide)
      (by decide) (by decide) (by decide) (by decide)).2,
   c6_line_draws_both_endpoints_and_degenerate_point.2.1 7 7
      (by decide) (by decide) (by decide) (by decide)⟩

end NbtgTimer
